import Mathlib

/-!
Shallow embedding of the `dfconfig` crate (src/src/lib.rs): a parser and
in-place editor for Dwarf-Fortress-style `[KEY:VALUE]` configuration files.
Rust strings are modelled as lists of characters; the functions below are
direct translations of the corresponding Rust items, with their source
locations noted in the doc comments.
-/

set_option maxHeartbeats 1000000

namespace Dfconfig

/-- Characters of a Rust string, in order; Rust `str` values are modelled as
lists of `Char`. -/
abbrev Str := List Char

/-- Models Rust `char::is_whitespace` on the ASCII range (the White_Space code
points below U+0080: space, tab, line feed, vertical tab, form feed, carriage
return). Non-ASCII white space is not modelled; no claim depends on it. -/
def rustIsWhitespace (c : Char) : Bool :=
  c = ' ' || c = '\t' || c = '\n' || c = '\x0b' || c = '\x0c' || c = '\r'

/-- Models `str::trim_end`: remove trailing white space (src/lib.rs:88). -/
def trimEnd (l : Str) : Str :=
  (l.reverse.dropWhile rustIsWhitespace).reverse

/-- Models Rust `char::is_alphanumeric` on the ASCII range (letters and
digits). Non-ASCII alphanumerics are not modelled; every claim's inputs are
ASCII, and the underscore is rejected by this class exactly as in Rust. -/
def rustIsAlphanumeric (c : Char) : Bool :=
  c.isAlphanum

/-- The character class `[\w\d]` of the key capture group of the entry regex
`^\[([\w\d]+):([\w\d:]+)\]$` (src/lib.rs:84). In ASCII, `\w` is the letters,
the digits and the underscore (`\d` is a subset of `\w`). -/
def isWordChar (c : Char) : Bool :=
  c.isAlphanum || c = '_'

/-- The character class `[\w\d:]` of the value capture group of the entry
regex (src/lib.rs:84): word characters plus the colon. -/
def isValueChar (c : Char) : Bool :=
  isWordChar c || c = ':'

/-- Models the `Entry` struct (src/lib.rs:44): one key/value pair. -/
structure Entry where
  key : Str
  value : Str
deriving DecidableEq

/-- Models the `Line` enum (src/lib.rs:37): one classified line of the file. -/
inductive Line where
  | Blank : Line
  | Comment (text : Str) : Line
  | Entry (e : Entry) : Line
deriving DecidableEq

/-- Deterministic model of matching the anchored regex
`^\[([\w\d]+):([\w\d:]+)\]$` (src/lib.rs:84) and extracting the two capture
groups. Because `:` is not a word character and `]` belongs to neither class,
the greedy capture groups are exactly `takeWhile` runs and no backtracking can
succeed where this function fails, so the model is exact. -/
def parseEntry (l : Str) : Option Entry :=
  match l with
  | [] => none
  | c :: rest =>
    if c = '[' then
      match rest.dropWhile isWordChar with
      | [] => none
      | c2 :: rest2 =>
        if c2 = ':' then
          if (rest.takeWhile isWordChar).isEmpty then none
          else if (rest2.takeWhile isValueChar).isEmpty then none
          else if rest2.dropWhile isValueChar = [']'] then
            some ⟨rest.takeWhile isWordChar, rest2.takeWhile isValueChar⟩
          else none
        else none
    else none

/-- The body of the per-line loop of `Config::read_str` (src/lib.rs:87-103):
trim the end, classify as Blank / Entry / Comment; the Comment keeps the
original untrimmed line. -/
def classifyLine (l : Str) : Line :=
  if (trimEnd l).isEmpty then .Blank
  else
    match parseEntry (trimEnd l) with
    | some e => .Entry e
    | none => .Comment l

/-- Models `str::split_inclusive` at the newline character: the segments keep
their terminating newline, and no empty trailing segment is produced. -/
def splitInclusiveNl : Str → List Str
  | [] => []
  | c :: rest =>
    if c = '\n' then [c] :: splitInclusiveNl rest
    else
      match splitInclusiveNl rest with
      | [] => [[c]]
      | p :: ps => (c :: p) :: ps

/-- The per-item map of `str::lines`: strip one trailing newline, and when one
was stripped, also one trailing carriage return. -/
def linesMap (l : Str) : Str :=
  if l.getLast? = some '\n' then
    if l.dropLast.getLast? = some '\r' then l.dropLast.dropLast else l.dropLast
  else l

/-- Models `str::lines` as used by `Config::read_str` (src/lib.rs:87): split
inclusively at newlines, then strip the line terminators. -/
def rustLines (s : Str) : List Str :=
  (splitInclusiveNl s).map linesMap

/-- Models the `Config` struct (src/lib.rs:71): the ordered line sequence. -/
structure Config where
  lines : List Line
deriving DecidableEq

/-- Models `Config::new` (src/lib.rs:77). -/
def Config.new : Config := ⟨[]⟩

/-- Models `Config::read_str` (src/lib.rs:82): classify every physical line of
the input, in order. The function is total: it returns a `Config` for every
input and has no failure mode. -/
def Config.read_str (s : Str) : Config :=
  ⟨(rustLines s).map classifyLine⟩

/-- The closure of `Config::get` (src/lib.rs:111-120): the value of a line
when it is an entry bearing the looked-up key. -/
def entryValue? (key : Str) (l : Line) : Option Str :=
  match l with
  | .Entry e => if e.key = key then some e.value else none
  | _ => none

/-- Models `Config::get` (src/lib.rs:110): reverse scan, first hit wins, so
the last occurrence in original order is returned. -/
def Config.get (c : Config) (key : Str) : Option Str :=
  c.lines.reverse.findSome? (entryValue? key)

/-- Outcome of `Config::set` (src/lib.rs:128). The Rust function returns unit
and signals invalid arguments with a Rust panic, an abort that unwinds out of
the function rather than an error value returned to the caller; `panicked`
models that abort and carries the panic message together with the line
sequence as it stands when the panic fires (the validation precedes every
mutation, so these are the untouched original lines). -/
inductive SetOutcome where
  | panicked (msg : Str) (lines : List Line) : SetOutcome
  | ok (c : Config) : SetOutcome
deriving DecidableEq

/-- The panic message of `Config::set` (src/lib.rs:136). -/
def panicMsg : Str :=
  ("Both key and value have to be non-empty alphanumeric strings!".data)

/-- The update-and-count loop of `Config::set` (src/lib.rs:138-146): rewrite
the value of every entry whose key matches, and count the rewrites. -/
def setGo (key value : Str) : List Line → List Line × Nat
  | [] => ([], 0)
  | l :: rest =>
    let r := setGo key value rest
    match l with
    | .Entry e =>
      if e.key = key then (Line.Entry ⟨e.key, value⟩ :: r.1, r.2 + 1)
      else (l :: r.1, r.2)
    | _ => (l :: r.1, r.2)

/-- Models `Config::set` (src/lib.rs:128): validate both arguments (panic when
either is empty or not all alphanumeric), update all matching entries in
place, and append a fresh entry when nothing was updated. -/
def Config.set (c : Config) (key value : Str) : SetOutcome :=
  if key.isEmpty || !(key.all rustIsAlphanumeric)
      || value.isEmpty || !(value.all rustIsAlphanumeric) then
    .panicked panicMsg c.lines
  else
    let r := setGo key value c.lines
    if r.2 = 0 then .ok ⟨r.1 ++ [Line.Entry ⟨key, value⟩]⟩
    else .ok ⟨r.1⟩

/-- The test of the search closure of `Config::remove` (src/lib.rs:159-161):
whether a line is an entry bearing the given key. -/
def entryKeyMatches (key : Str) (l : Line) : Bool :=
  match l with
  | .Entry e => decide (e.key = key)
  | _ => false

/-- The search of one iteration of the `Config::remove` loop
(src/lib.rs:158-165): index of the first entry bearing the key, via
`enumerate` plus `find_map` exactly as in the source. -/
def firstEntryIdx (key : Str) (lines : List Line) : Option Nat :=
  lines.enum.findSome? (fun ix => if entryKeyMatches key ix.2 then some ix.1 else none)

theorem enumFrom_findSome?_shift (key : Str) (t : List Line) (n : Nat) :
    (t.enumFrom (n + 1)).findSome?
        (fun ix => if entryKeyMatches key ix.2 then some ix.1 else none)
      = ((t.enumFrom n).findSome?
          (fun ix => if entryKeyMatches key ix.2 then some ix.1 else none)).map (· + 1) := by
  induction t generalizing n with
  | nil => simp [List.enumFrom]
  | cons b t ih =>
    simp only [List.enumFrom, List.findSome?]
    by_cases hb : entryKeyMatches key b
    · simp [hb]
    · simp only [hb, if_neg, Bool.false_eq_true, not_false_eq_true, if_false]
      exact ih (n + 1)

theorem firstEntryIdx_cons (key : Str) (a : Line) (t : List Line) :
    firstEntryIdx key (a :: t)
      = if entryKeyMatches key a then some 0 else (firstEntryIdx key t).map (· + 1) := by
  unfold firstEntryIdx
  simp only [List.enum, List.enumFrom, List.findSome?]
  by_cases ha : entryKeyMatches key a
  · simp [ha]
  · simp only [ha, Bool.false_eq_true, not_false_eq_true, if_neg, if_false]
    exact enumFrom_findSome?_shift key t 0

theorem firstEntryIdx_step (key : Str) :
    ∀ (l : List Line) (i : Nat), firstEntryIdx key l = some i →
      i < l.length ∧
      (l.eraseIdx i).filter (fun x => !(entryKeyMatches key x))
        = l.filter (fun x => !(entryKeyMatches key x)) ∧
      l.countP (entryKeyMatches key) = (l.eraseIdx i).countP (entryKeyMatches key) + 1 := by
  intro l
  induction l with
  | nil => intro i h; simp [firstEntryIdx, List.enum, List.enumFrom, List.findSome?] at h
  | cons a t ih =>
    intro i h
    rw [firstEntryIdx_cons] at h
    by_cases ha : entryKeyMatches key a
    · simp only [ha, if_true] at h
      cases h
      refine ⟨by simp, ?_, ?_⟩
      · simp [List.eraseIdx, List.filter_cons, ha]
      · simp [List.eraseIdx, List.countP_cons, ha]
    · simp only [ha, Bool.false_eq_true, if_false, Option.map_eq_some'] at h
      obtain ⟨j, hj, rfl⟩ := h
      obtain ⟨h1, h2, h3⟩ := ih j hj
      refine ⟨by simpa using Nat.succ_lt_succ h1, ?_, ?_⟩
      · simp [List.eraseIdx, List.filter_cons, ha, h2]
      · simp [List.eraseIdx, List.countP_cons, ha, h3]

theorem length_eraseIdx_lt : ∀ (l : List Line) (i : Nat), i < l.length →
    (l.eraseIdx i).length < l.length := by
  intro l
  induction l with
  | nil => simp
  | cons a t ih =>
    intro i hi
    cases i with
    | zero => simp [List.eraseIdx]
    | succ j =>
      simp only [List.eraseIdx, List.length_cons]
      exact Nat.succ_lt_succ (ih j (by simpa using hi))

/-- The removal loop of `Config::remove` (src/lib.rs:157-173): repeatedly find
the first entry bearing the key, remove it at its index, and count. -/
def removeGo (key : Str) (lines : List Line) (n : Nat) : List Line × Nat :=
  match h : firstEntryIdx key lines with
  | none => (lines, n)
  | some i => removeGo key (lines.eraseIdx i) (n + 1)
termination_by lines.length
decreasing_by
  exact length_eraseIdx_lt lines i (firstEntryIdx_step key lines i h).1

/-- Models `Config::remove` (src/lib.rs:155): the mutated config together with
the returned removal count. -/
def Config.remove (c : Config) (key : Str) : Config × Nat :=
  let r := removeGo key c.lines 0
  (⟨r.1⟩, r.2)

/-- The filter test of `Config::len` (src/lib.rs:181): whether a line is an
entry. -/
def isEntryLine : Line → Bool
  | .Entry _ => true
  | _ => false

/-- Models `Config::len` (src/lib.rs:178): count of entry lines. -/
def Config.len (c : Config) : Nat :=
  (c.lines.filter isEntryLine).length

/-- Models `Config::is_empty` (src/lib.rs:186). -/
def Config.is_empty (c : Config) : Bool :=
  c.len == 0

/-- The closure of `Config::keys_iter` (src/lib.rs:192-198). -/
def entryKey? : Line → Option Str
  | .Entry e => some e.key
  | _ => none

/-- Models `Config::keys_iter` (src/lib.rs:191) as the list of the keys it
yields, in order. -/
def Config.keys_iter (c : Config) : List Str :=
  c.lines.filterMap entryKey?

/-- The closure of `Config::keys_values_iter` (src/lib.rs:203-209). -/
def entryKeyValue? : Line → Option (Str × Str)
  | .Entry e => some (e.key, e.value)
  | _ => none

/-- Models `Config::keys_values_iter` (src/lib.rs:202) as the list of the
pairs it yields, in order. -/
def Config.keys_values_iter (c : Config) : List (Str × Str) :=
  c.lines.filterMap entryKeyValue?

/-- The per-line rendering of `Config::print` (src/lib.rs:216-222). -/
def printLine : Line → Str
  | .Blank => []
  | .Comment x => x
  | .Entry e => '[' :: (e.key ++ ':' :: (e.value ++ [']']))

/-- Models `Vec::join` with the two-character separator `"\r\n"` used by
`Config::print` (src/lib.rs:225). -/
def joinCRLF : List Str → Str
  | [] => []
  | [l] => l
  | l :: l2 :: rest => l ++ '\r' :: '\n' :: joinCRLF (l2 :: rest)

/-- Models `Config::print` (src/lib.rs:213): render every line and join with
the carriage-return line-feed separator. -/
def Config.print (c : Config) : Str :=
  joinCRLF (c.lines.map printLine)

/-- Observable model of `std::collections::HashMap<String, String>` as an
association list holding at most one pair per key: `hmInsert` replaces the
value of a present key and adds an absent key, which is exactly the observable
behaviour of `HashMap::insert`. Only lookup and size are stated about the
conversion, and on those this model agrees with the Rust map (iteration order
of a `HashMap` is unspecified and never observed by the crate). -/
def hmInsert (m : List (Str × Str)) (k v : Str) : List (Str × Str) :=
  if m.any (fun p => decide (p.1 = k)) then
    m.map (fun p => if p.1 = k then (k, v) else p)
  else m ++ [(k, v)]

/-- Lookup in the association-list model of the hash map. -/
def hmGet (m : List (Str × Str)) (k : Str) : Option Str :=
  (m.find? (fun p => decide (p.1 = k))).map (fun p => p.2)

/-- Models `From<Config> for HashMap<String, String>` (src/lib.rs:229): fold
the `keys_values_iter` sequence in order, inserting each pair. -/
def configToHashMap (c : Config) : List (Str × Str) :=
  c.keys_values_iter.foldl (fun m kv => hmInsert m kv.1 kv.2) []

/-- The pointwise effect of the `Config::set` update loop on one line: entries
bearing the key get the new value, every other line is untouched. -/
def updateMatching (key value : Str) (l : Line) : Line :=
  match l with
  | .Entry e => if e.key = key then .Entry ⟨e.key, value⟩ else l
  | _ => l

/-- Whether a `Config::set` outcome is the modelled Rust panic. -/
def isPanicked : SetOutcome → Bool
  | .panicked _ _ => true
  | .ok _ => false

/-- The entry sequence observable after a `Config::set` call: `none` when the
call panicked, otherwise the key/value pairs of the resulting config. -/
def setOutcomeEntries : SetOutcome → Option (List (Str × Str))
  | .panicked _ _ => none
  | .ok c => some c.keys_values_iter

/-- A line string that serialization reproduces exactly: it contains no
newline and is an empty (blank) line, a line that is exactly an entry match of
the regex, or a comment line (non-blank after end-trimming and not an entry
match of its end-trimmed form). -/
def validLineB (l : Str) : Bool :=
  !(l.contains '\n') &&
    (l.isEmpty || (parseEntry l).isSome ||
      (!((trimEnd l).isEmpty) && (parseEntry (trimEnd l)).isNone))

/-- Well-formed classified lines: exactly the shapes `Config::read_str`
produces. Comments hold one physical line (no newline) that classifies back to
a comment; entry keys and values are non-empty and drawn from the regex
character classes. -/
def wfLineB : Line → Bool
  | .Blank => true
  | .Comment s =>
      !(s.contains '\n') && !((trimEnd s).isEmpty) && (parseEntry (trimEnd s)).isNone
  | .Entry e =>
      !(e.key.isEmpty) && e.key.all isWordChar
        && !(e.value.isEmpty) && e.value.all isValueChar

/-! Characterizations of the three mutating loops. -/

theorem updateMatching_of_no_match (key value : Str) {l : Line}
    (h : entryKeyMatches key l = false) : updateMatching key value l = l := by
  cases l with
  | Blank => rfl
  | Comment s => rfl
  | Entry e =>
    simp only [entryKeyMatches, decide_eq_false_iff_not] at h
    simp [updateMatching, h]

theorem map_updateMatching_of_no_match (key value : Str) {l : List Line}
    (h : ∀ x ∈ l, entryKeyMatches key x = false) :
    l.map (updateMatching key value) = l := by
  induction l with
  | nil => rfl
  | cons a t ih =>
    simp only [List.map_cons]
    rw [updateMatching_of_no_match key value (h a (by simp)),
      ih (fun x hx => h x (by simp [hx]))]

theorem isEntryLine_updateMatching (key value : Str) (l : Line) :
    isEntryLine (updateMatching key value l) = isEntryLine l := by
  cases l with
  | Blank => rfl
  | Comment s => rfl
  | Entry e =>
    by_cases he : e.key = key <;> simp [updateMatching, isEntryLine, he]

theorem setGo_spec (key value : Str) : ∀ l : List Line,
    setGo key value l = (l.map (updateMatching key value), l.countP (entryKeyMatches key)) := by
  intro l
  induction l with
  | nil => simp [setGo]
  | cons a t ih =>
    cases a with
    | Blank => simp [setGo, ih, updateMatching, entryKeyMatches, List.countP_cons]
    | Comment s => simp [setGo, ih, updateMatching, entryKeyMatches, List.countP_cons]
    | Entry e =>
      by_cases he : e.key = key <;>
        simp [setGo, ih, updateMatching, entryKeyMatches, he, List.countP_cons]

theorem firstEntryIdx_none (key : Str) : ∀ l : List Line, firstEntryIdx key l = none →
    ∀ x ∈ l, entryKeyMatches key x = false := by
  intro l
  induction l with
  | nil => simp
  | cons a t ih =>
    rw [firstEntryIdx_cons]
    intro h x hx
    by_cases ha : entryKeyMatches key a
    · simp [ha] at h
    · simp only [ha, Bool.false_eq_true, if_false, Option.map_eq_none'] at h
      rcases List.mem_cons.mp hx with rfl | hxt
      · simpa using ha
      · exact ih h x hxt

theorem removeGo_spec (key : Str) (l : List Line) (n : Nat) :
    removeGo key l n
      = (l.filter (fun x => !(entryKeyMatches key x)), n + l.countP (entryKeyMatches key)) := by
  rw [removeGo]
  split
  · rename_i h
    have hnone := firstEntryIdx_none key l h
    rw [List.filter_eq_self.mpr (fun a ha => by simp [hnone a ha]),
      List.countP_eq_zero.mpr (fun a ha => by simp [hnone a ha])]
    simp
  · rename_i i h
    have hstep := firstEntryIdx_step key l i h
    rw [removeGo_spec key (l.eraseIdx i) (n + 1), hstep.2.1, hstep.2.2]
    exact Prod.ext rfl (by omega)
termination_by l.length
decreasing_by
  exact length_eraseIdx_lt _ _ (firstEntryIdx_step _ _ _ (by assumption)).1

/-! Characterization of the reverse scan of `Config::get`. -/

theorem findSome?_reverse_eq_getLast?_filterMap {α β : Type} (f : α → Option β) :
    ∀ l : List α, l.reverse.findSome? f = (l.filterMap f).getLast? := by
  intro l
  induction l with
  | nil => simp
  | cons a t ih =>
    rw [List.reverse_cons, List.findSome?_append, ih, List.filterMap_cons]
    cases hfa : f a with
    | none =>
      simp [List.findSome?, hfa]
    | some b =>
      cases hlast : (t.filterMap f).getLast? with
      | none =>
        rw [List.getLast?_eq_none_iff.mp hlast]
        simp [List.findSome?, hfa]
      | some c =>
        have : t.filterMap f ≠ [] := by
          intro he
          rw [he] at hlast
          simp at hlast
        rcases List.exists_cons_of_ne_nil this with ⟨d, ds, hds⟩
        simp [hds, Option.or]
        rw [← hds, hlast]

theorem get_eq_getLast_filterMap (c : Config) (key : Str) :
    c.get key = (c.lines.filterMap (entryValue? key)).getLast? :=
  findSome?_reverse_eq_getLast?_filterMap (entryValue? key) c.lines

theorem entryValue?_eq_none_iff (key : Str) (l : Line) :
    entryValue? key l = none ↔ entryKeyMatches key l = false := by
  cases l with
  | Blank => simp [entryValue?, entryKeyMatches]
  | Comment s => simp [entryValue?, entryKeyMatches]
  | Entry e =>
    by_cases he : e.key = key <;> simp [entryValue?, entryKeyMatches, he]

theorem get_eq_none_iff (c : Config) (key : Str) :
    c.get key = none ↔ ∀ l ∈ c.lines, entryKeyMatches key l = false := by
  rw [get_eq_getLast_filterMap, List.getLast?_eq_none_iff, List.filterMap_eq_nil_iff]
  constructor
  · intro h l hl
    exact (entryValue?_eq_none_iff key l).mp (h l hl)
  · intro h l hl
    exact (entryValue?_eq_none_iff key l).mpr (h l hl)

/-! Claim theorems. -/

/-- C3: `Config.get` returns the value of the last Entry line in sequence
order whose key compares equal to the given key under exact, case-sensitive
character equality (the last element of the in-order list of values of
matching entries), and returns `none` exactly when no Entry line bears the
key; on `"[A:B]\r\n[A:C]"` the lookup of `"A"` yields `"C"`. -/
theorem get_last_occurrence (c : Config) (key : Str) :
    c.get key = (c.lines.filterMap (entryValue? key)).getLast? ∧
    (c.get key = none ↔ ∀ l ∈ c.lines, entryKeyMatches key l = false) ∧
    (Config.read_str (("[A:B]\r\n[A:C]").data)).get (("A").data) = some (("C").data) :=
  ⟨get_eq_getLast_filterMap c key, get_eq_none_iff c key, by decide⟩

/-- C5: `Config.remove` deletes exactly the Entry lines whose key equals the
given key (the result is the order-preserving filter of the original
sequence, so every Blank, Comment and non-matching Entry stays in relative
order), returns the number of lines deleted, that count is 0 exactly when no
Entry matched, and afterwards `get` of the key returns `none`; on the
document parsed from `"[A:foo]\r\n[B:bar]\r\n[B:bar2]\r\n[C:foobar]"`,
removing `"B"` returns 2 and leaves 2 entries. -/
theorem remove_deletes_matching (c : Config) (key : Str) :
    ((c.remove key).1).lines = c.lines.filter (fun x => !(entryKeyMatches key x)) ∧
    (c.remove key).2 = c.lines.countP (entryKeyMatches key) ∧
    ((c.remove key).2 = 0 ↔ ∀ l ∈ c.lines, entryKeyMatches key l = false) ∧
    ((c.remove key).1).get key = none ∧
    ((Config.read_str (("[A:foo]\r\n[B:bar]\r\n[B:bar2]\r\n[C:foobar]").data)).remove
        (("B").data)).2 = 2 ∧
    ((Config.read_str (("[A:foo]\r\n[B:bar]\r\n[B:bar2]\r\n[C:foobar]").data)).remove
        (("B").data)).1.len = 2 := by
  have h := removeGo_spec key c.lines 0
  refine ⟨?_, ?_, ?_, ?_, ?_, ?_⟩
  · simp [Config.remove, h]
  · simp [Config.remove, h]
  · simp only [Config.remove, h, Nat.zero_add]
    constructor
    · intro hz l hl
      simpa using List.countP_eq_zero.mp hz l hl
    · intro hf
      exact List.countP_eq_zero.mpr (fun a ha => by simp [hf a ha])
  · rw [get_eq_none_iff]
    intro l hl
    simp only [Config.remove, h] at hl
    have := List.of_mem_filter hl
    simpa using this
  · simp [Config.remove, removeGo_spec]
    decide
  · simp [Config.remove, removeGo_spec]
    decide

/-- C2: with a valid (non-empty, all-alphanumeric) key and value, when at
least one Entry bearing the key exists, `set` rewrites the value of every
such Entry in place — the result is the pointwise map of the original
sequence, so every line keeps its position, the number of lines and `len` are
unchanged and nothing is appended — and when no Entry bears the key, `set`
appends exactly one new Entry at the end of the sequence; the two cases are
mutually exclusive, so it never both updates and appends. -/
theorem set_update_or_append (c : Config) (key value : Str)
    (hk0 : key ≠ []) (hk1 : key.all rustIsAlphanumeric = true)
    (hv0 : value ≠ []) (hv1 : value.all rustIsAlphanumeric = true) :
    ((∃ l ∈ c.lines, entryKeyMatches key l = true) →
        c.set key value = SetOutcome.ok ⟨c.lines.map (updateMatching key value)⟩ ∧
        (c.lines.map (updateMatching key value)).length = c.lines.length ∧
        (Config.mk (c.lines.map (updateMatching key value))).len = c.len) ∧
    ((∀ l ∈ c.lines, entryKeyMatches key l = false) →
        c.set key value = SetOutcome.ok ⟨c.lines ++ [Line.Entry ⟨key, value⟩]⟩) := by
  have hvalid : (key.isEmpty || !(key.all rustIsAlphanumeric)
      || value.isEmpty || !(value.all rustIsAlphanumeric)) = false := by
    simp [List.isEmpty_iff, hk0, hk1, hv0, hv1]
  constructor
  · intro hex
    have hne : c.lines.countP (entryKeyMatches key) ≠ 0 :=
      Nat.pos_iff_ne_zero.mp (List.countP_pos_iff.mpr hex)
    refine ⟨?_, by simp, ?_⟩
    · simp [Config.set, hvalid, setGo_spec, hne]
    · unfold Config.len
      simp only
      rw [← List.countP_eq_length_filter, ← List.countP_eq_length_filter, List.countP_map]
      exact List.countP_congr (fun a _ => by simp [Function.comp, isEntryLine_updateMatching])
  · intro hnone
    have hzero : c.lines.countP (entryKeyMatches key) = 0 := List.countP_eq_zero.mpr
      (fun a ha => by simp [hnone a ha])
    simp [Config.set, hvalid, setGo_spec, hzero, map_updateMatching_of_no_match key value hnone]

/-- C2 witness: updating the sole entry of `"[A:B]"`-shaped data in place, and
appending to an entryless document. -/
theorem set_update_or_append_witness :
    (Config.mk [Line.Entry ⟨("A").data, ("B").data⟩]).set (("A").data) (("C").data)
        = SetOutcome.ok ⟨[Line.Entry ⟨("A").data, ("C").data⟩]⟩ ∧
    (Config.mk [Line.Blank]).set (("A").data) (("B").data)
        = SetOutcome.ok ⟨[Line.Blank, Line.Entry ⟨("A").data, ("B").data⟩]⟩ := by
  constructor
  · have h := (set_update_or_append (Config.mk [Line.Entry ⟨("A").data, ("B").data⟩])
      (("A").data) (("C").data) (by decide) (by decide) (by decide) (by decide)).1 (by decide)
    rw [h.1]
    decide
  · have h := (set_update_or_append (Config.mk [Line.Blank])
      (("A").data) (("B").data) (by decide) (by decide) (by decide) (by decide)).2 (by decide)
    rw [h]
    decide

/-- C4 counterexample: on both invalid calls named by the claim, the failure
of `Config::set` is a Rust panic — `SetOutcome.panicked` models `panic!`, an
unrecoverable abort that unwinds out of `set` — and not an `InvalidArgument`
error value reported to the caller: the source's `set` returns unit and
declares no error type, so the claimed recoverable, surfaced error condition
does not exist in the code. -/
theorem set_invalid_is_abort_counterexample :
    Config.new.set [] (("x").data) = SetOutcome.panicked panicMsg [] ∧
    Config.new.set (("key\r").data) (("v").data) = SetOutcome.panicked panicMsg [] := by
  exact ⟨rfl, rfl⟩

/-- C4 (amended): when the key or the value is empty or contains a character
outside the alphanumeric class, `set` fails by panicking — an abort carrying
the fixed message, not a returned error value — and the panic fires during
validation, before any mutation, so the line sequence left behind is exactly
the original one; in particular `set("", "x")` and `set("key\r", "v")` fail
this way with the document unchanged. -/
theorem set_invalid_panics (c : Config) (key value : Str)
    (h : key = [] ∨ ¬ key.all rustIsAlphanumeric = true
      ∨ value = [] ∨ ¬ value.all rustIsAlphanumeric = true) :
    c.set key value = SetOutcome.panicked panicMsg c.lines := by
  have hcond : (key.isEmpty || !(key.all rustIsAlphanumeric)
      || value.isEmpty || !(value.all rustIsAlphanumeric)) = true := by
    rcases h with h | h | h | h <;> simp [h, List.isEmpty_iff]
  simp [Config.set, hcond]

/-- C4 witness: the amended statement at the two concrete invalid calls. -/
theorem set_invalid_panics_witness :
    (Config.mk [Line.Blank]).set [] (("x").data)
        = SetOutcome.panicked panicMsg [Line.Blank] ∧
    (Config.mk [Line.Blank]).set (("key\r").data) (("v").data)
        = SetOutcome.panicked panicMsg [Line.Blank] :=
  ⟨set_invalid_panics _ _ _ (Or.inl rfl),
    set_invalid_panics _ _ _ (Or.inr (Or.inl (by decide)))⟩

/-- C10: the parser's entry grammar and `set`'s validation accept different
character sets: the regex word class admits the underscore while
`char::is_alphanumeric` rejects it, so `"[A_B:C]"` parses to an Entry whose
key `get` resolves to `"C"`, yet `set` with that same key panics for every
value whatsoever. -/
theorem parser_accepts_key_set_rejects :
    (Config.read_str (("[A_B:C]").data)).get (("A_B").data) = some (("C").data) ∧
    isWordChar '_' = true ∧ rustIsAlphanumeric '_' = false ∧
    ∀ value : Str,
      isPanicked ((Config.read_str (("[A_B:C]").data)).set (("A_B").data) value) = true := by
  refine ⟨by decide, rfl, rfl, fun value => rfl⟩

/-! Shape of the lines the entry regex accepts. -/

theorem parseEntry_shape : ∀ (l : Str) (e : Entry), parseEntry l = some e →
    l = '[' :: (e.key ++ ':' :: (e.value ++ [']'])) ∧
    ':' ∉ e.key ∧ ']' ∉ e.value ∧
    e.key ≠ [] ∧ e.key.all isWordChar = true ∧
    e.value ≠ [] ∧ e.value.all isValueChar = true := by
  intro l e h
  cases l with
  | nil => simp [parseEntry] at h
  | cons c rest =>
    simp only [parseEntry] at h
    by_cases hc : c = '['
    swap
    · rw [if_neg hc] at h
      exact absurd h (by simp)
    subst hc
    rw [if_pos rfl] at h
    cases hdrop : rest.dropWhile isWordChar with
    | nil => rw [hdrop] at h; exact absurd h (by simp)
    | cons c2 rest2 =>
      rw [hdrop] at h
      simp only [] at h
      by_cases hc2 : c2 = ':'
      swap
      · rw [if_neg hc2] at h
        exact absurd h (by simp)
      subst hc2
      rw [if_pos rfl] at h
      by_cases hkey : (rest.takeWhile isWordChar).isEmpty
      · rw [if_pos hkey] at h
        exact absurd h (by simp)
      rw [if_neg hkey] at h
      by_cases hval : (rest2.takeWhile isValueChar).isEmpty
      · rw [if_pos hval] at h
        exact absurd h (by simp)
      rw [if_neg hval] at h
      by_cases hdrop2 : rest2.dropWhile isValueChar = [']']
      swap
      · rw [if_neg hdrop2] at h
        exact absurd h (by simp)
      rw [if_pos hdrop2, Option.some_inj] at h
      subst h
      have hkw : (rest.takeWhile isWordChar).all isWordChar = true := List.all_takeWhile
      have hvw : (rest2.takeWhile isValueChar).all isValueChar = true := List.all_takeWhile
      have h2 : rest2 = rest2.takeWhile isValueChar ++ [']'] := by
        rw [← hdrop2]
        exact (List.takeWhile_append_dropWhile _ _).symm
      have h1 : rest = rest.takeWhile isWordChar ++ ':' :: rest2 := by
        rw [← hdrop]
        exact (List.takeWhile_append_dropWhile _ _).symm
      refine ⟨?_, ?_, ?_, ?_, hkw, ?_, hvw⟩
      · show '[' :: rest = _
        conv_lhs => rw [h1, h2]
      · intro hmem
        have := List.all_eq_true.mp hkw ':' hmem
        simp [isWordChar] at this
      · intro hmem
        have := List.all_eq_true.mp hvw ']' hmem
        simp [isValueChar, isWordChar] at this
      · simpa [List.isEmpty_iff] using hkey
      · simpa [List.isEmpty_iff] using hval

theorem parseEntry_build (k v : Str) (hk0 : k ≠ []) (hk1 : k.all isWordChar = true)
    (hv0 : v ≠ []) (hv1 : v.all isValueChar = true) :
    parseEntry ('[' :: (k ++ ':' :: (v ++ [']']))) = some ⟨k, v⟩ := by
  have hkmem : ∀ a ∈ k, isWordChar a := fun a ha => List.all_eq_true.mp hk1 a ha
  have hvmem : ∀ a ∈ v, isValueChar a := fun a ha => List.all_eq_true.mp hv1 a ha
  have htk : (k ++ ':' :: (v ++ [']'])).takeWhile isWordChar = k := by
    rw [List.takeWhile_append_of_pos hkmem]
    simp [List.takeWhile_cons, isWordChar]
  have htd : (k ++ ':' :: (v ++ [']'])).dropWhile isWordChar = ':' :: (v ++ [']']) := by
    rw [List.dropWhile_append_of_pos hkmem]
    simp [List.dropWhile_cons, isWordChar]
  have hvk : (v ++ [']']).takeWhile isValueChar = v := by
    rw [List.takeWhile_append_of_pos hvmem]
    simp [List.takeWhile_cons, isValueChar, isWordChar]
  have hvd : (v ++ [']']).dropWhile isValueChar = [']'] := by
    rw [List.dropWhile_append_of_pos hvmem]
    simp [List.dropWhile_cons, isValueChar, isWordChar]
  have hkne : ¬ ((k.isEmpty : Bool) = true) := by simpa [List.isEmpty_iff] using hk0
  have hvne : ¬ ((v.isEmpty : Bool) = true) := by simpa [List.isEmpty_iff] using hv0
  unfold parseEntry
  simp only []
  rw [if_pos trivial, htd]
  simp only []
  rw [if_pos trivial, htk, hvk]
  rw [if_neg hkne, if_neg hvne, if_pos hvd]

theorem trimEnd_eq_self_of_last_not_ws {l : Str} {c : Char}
    (h : l.getLast? = some c) (hc : rustIsWhitespace c = false) : trimEnd l = l := by
  unfold trimEnd
  cases hr : l.reverse with
  | nil =>
    have : l = [] := by simpa using congrArg List.reverse hr
    simp [this]
  | cons a t =>
    have ha : a = c := by
      have hh : l.reverse.head? = some c := by rw [List.head?_reverse]; exact h
      rw [hr] at hh
      simpa using hh
    subst ha
    rw [List.dropWhile_cons_of_neg (by simp [hc])]
    rw [← hr, List.reverse_reverse]

theorem parseEntry_getLast {l : Str} {e : Entry} (h : parseEntry l = some e) :
    l.getLast? = some ']' := by
  obtain ⟨hshape, -⟩ := parseEntry_shape l e h
  have : l = ('[' :: (e.key ++ ':' :: e.value)) ++ [']'] := by
    rw [hshape]; simp
  rw [this, List.getLast?_concat]

theorem trimEnd_parseEntry {l : Str} {e : Entry} (h : parseEntry l = some e) :
    trimEnd l = l :=
  trimEnd_eq_self_of_last_not_ws (parseEntry_getLast h) (by decide)

/-- C6: the line classifier takes the key of an Entry line to be the segment
between the opening bracket and the first colon, and the value to be
everything between that colon and the final closing bracket: every accepted
line decomposes as `[`, key, `:`, value, `]` with no colon in the key (so the
shown colon is the first) and no closing bracket in the value (so the shown
bracket is the final character); hence a value may contain colons, and
parsing `"[A:B:C]"` yields the single Entry `A` / `B:C` on which `get("A")`
returns `"B:C"`. -/
theorem entry_key_value_split :
    (∀ (l : Str) (e : Entry), parseEntry l = some e →
        l = '[' :: (e.key ++ ':' :: (e.value ++ [']'])) ∧
        ':' ∉ e.key ∧ ']' ∉ e.value ∧ e.key ≠ [] ∧ e.value ≠ []) ∧
    (Config.read_str (("[A:B:C]").data)).lines
        = [Line.Entry ⟨("A").data, ("B:C").data⟩] ∧
    (Config.read_str (("[A:B:C]").data)).get (("A").data) = some (("B:C").data) := by
  refine ⟨?_, by decide, by decide⟩
  intro l e h
  obtain ⟨h1, h2, h3, h4, -, h5, -⟩ := parseEntry_shape l e h
  exact ⟨h1, h2, h3, h4, h5⟩

/-- C6 witness: the decomposition at the concrete accepted line `"[A:B:C]"`. -/
theorem entry_key_value_split_witness :
    ("[A:B:C]").data = '[' :: ((("A").data) ++ ':' :: ((("B:C").data) ++ [']'])) ∧
    ':' ∉ (("A").data) ∧ ']' ∉ (("B:C").data) ∧
    (("A").data) ≠ [] ∧ (("B:C").data) ≠ [] :=
  entry_key_value_split.1 (("[A:B:C]").data) ⟨("A").data, ("B:C").data⟩ (by decide)

/-- C7: `read_str` is total — a Lean function defined on every input string,
with no failure mode — and classifies each physical line of the split input
into exactly one of Blank (white-space-only after end-trimming, including the
empty line), Entry (the trimmed line matches the entry grammar), or Comment
(everything else), the Comment storing the original untrimmed line text
exactly. -/
theorem read_str_classifies (s : Str) :
    (Config.read_str s).lines = (rustLines s).map classifyLine ∧
    ∀ l ∈ rustLines s,
      ((trimEnd l).isEmpty = true ∧ classifyLine l = Line.Blank) ∨
      ((trimEnd l).isEmpty = false ∧
        ∃ e, parseEntry (trimEnd l) = some e ∧ classifyLine l = Line.Entry e) ∨
      ((trimEnd l).isEmpty = false ∧ parseEntry (trimEnd l) = none ∧
        classifyLine l = Line.Comment l) := by
  refine ⟨rfl, ?_⟩
  intro l _
  by_cases hb : (trimEnd l).isEmpty
  · exact Or.inl ⟨hb, by simp [classifyLine, hb]⟩
  · cases hp : parseEntry (trimEnd l) with
    | some e =>
      exact Or.inr (Or.inl ⟨by simpa using hb, e, rfl, by simp [classifyLine, hb, hp]⟩)
    | none =>
      exact Or.inr (Or.inr ⟨by simpa using hb, rfl, by simp [classifyLine, hb, hp]⟩)

/-- C7 witness: the classification disjunction at the comment line `"foo,"`
of the one-line input `"foo,"`. -/
theorem read_str_classifies_witness :
    ((trimEnd (("foo,").data)).isEmpty = true
        ∧ classifyLine (("foo,").data) = Line.Blank) ∨
    ((trimEnd (("foo,").data)).isEmpty = false ∧
        ∃ e, parseEntry (trimEnd (("foo,").data)) = some e
          ∧ classifyLine (("foo,").data) = Line.Entry e) ∨
    ((trimEnd (("foo,").data)).isEmpty = false
        ∧ parseEntry (trimEnd (("foo,").data)) = none
        ∧ classifyLine (("foo,").data) = Line.Comment (("foo,").data)) :=
  (read_str_classifies (("foo,").data)).2 (("foo,").data) (by decide)

/-! Non-entry lines are inert for every key-based observation. -/

theorem entryValue?_of_not_entry (key : Str) {x : Line} (h : isEntryLine x = false) :
    entryValue? key x = none := by
  cases x <;> simp_all [isEntryLine, entryValue?]

theorem entryKey?_of_not_entry {x : Line} (h : isEntryLine x = false) :
    entryKey? x = none := by
  cases x <;> simp_all [isEntryLine, entryKey?]

theorem entryKeyValue?_of_not_entry {x : Line} (h : isEntryLine x = false) :
    entryKeyValue? x = none := by
  cases x <;> simp_all [isEntryLine, entryKeyValue?]

theorem entryKeyMatches_of_not_entry (key : Str) {x : Line} (h : isEntryLine x = false) :
    entryKeyMatches key x = false := by
  cases x <;> simp_all [isEntryLine, entryKeyMatches]

theorem updateMatching_of_not_entry (key value : Str) {x : Line}
    (h : isEntryLine x = false) : updateMatching key value x = x := by
  cases x <;> simp_all [isEntryLine, updateMatching]

theorem keys_values_of_set_insert (key value : Str) (l1 l2 : List Line) (x : Line)
    (hx : isEntryLine x = false) :
    setOutcomeEntries ((Config.mk (l1 ++ x :: l2)).set key value)
      = setOutcomeEntries ((Config.mk (l1 ++ l2)).set key value) := by
  by_cases hvalid : (key.isEmpty || !(key.all rustIsAlphanumeric)
      || value.isEmpty || !(value.all rustIsAlphanumeric)) = true
  · simp [Config.set, hvalid, setOutcomeEntries]
  · have hm : entryKeyMatches key x = false := entryKeyMatches_of_not_entry key hx
    have hcnt : (l1 ++ x :: l2).countP (entryKeyMatches key)
        = (l1 ++ l2).countP (entryKeyMatches key) := by
      simp [List.countP_cons, hm]
    have hset : ∀ ls : List Line, (Config.mk ls).set key value =
        (if ls.countP (entryKeyMatches key) = 0 then
          SetOutcome.ok ⟨ls.map (updateMatching key value) ++ [Line.Entry ⟨key, value⟩]⟩
        else SetOutcome.ok ⟨ls.map (updateMatching key value)⟩) := by
      intro ls
      simp [Config.set, hvalid, setGo_spec]
    rw [hset, hset, hcnt]
    by_cases hz : (l1 ++ l2).countP (entryKeyMatches key) = 0
    · rw [if_pos hz, if_pos hz]
      simp only [setOutcomeEntries, Config.keys_values_iter, Option.some_inj]
      simp only [List.map_append, List.map_cons, List.filterMap_append,
        updateMatching_of_not_entry key value hx]
      rw [List.filterMap_cons_none (entryKeyValue?_of_not_entry hx)]
    · rw [if_neg hz, if_neg hz]
      simp only [setOutcomeEntries, Config.keys_values_iter, Option.some_inj]
      simp only [List.map_append, List.map_cons, List.filterMap_append,
        updateMatching_of_not_entry key value hx]
      rw [List.filterMap_cons_none (entryKeyValue?_of_not_entry hx)]

/-- C8: `len` counts exactly the Entry lines (Blank and Comment lines are
ignored), `is_empty` holds exactly when `len` is 0, and Blank and Comment
lines are invisible to every key-based operation: inserting a non-entry line
at any position changes nothing about `len`, `get`, `keys_iter`,
`keys_values_iter`, the count `remove` returns, or the entry sequence
produced by `set`. -/
theorem len_and_invisibility (c : Config) (key : Str) (l1 l2 : List Line) (x : Line)
    (hx : isEntryLine x = false) :
    c.len = c.lines.countP isEntryLine ∧
    (c.is_empty = true ↔ c.len = 0) ∧
    (Config.mk (l1 ++ x :: l2)).len = (Config.mk (l1 ++ l2)).len ∧
    (Config.mk (l1 ++ x :: l2)).get key = (Config.mk (l1 ++ l2)).get key ∧
    (Config.mk (l1 ++ x :: l2)).keys_iter = (Config.mk (l1 ++ l2)).keys_iter ∧
    (Config.mk (l1 ++ x :: l2)).keys_values_iter
        = (Config.mk (l1 ++ l2)).keys_values_iter ∧
    ((Config.mk (l1 ++ x :: l2)).remove key).2 = ((Config.mk (l1 ++ l2)).remove key).2 ∧
    (∀ value, setOutcomeEntries ((Config.mk (l1 ++ x :: l2)).set key value)
        = setOutcomeEntries ((Config.mk (l1 ++ l2)).set key value)) := by
  refine ⟨?_, ?_, ?_, ?_, ?_, ?_, ?_, ?_⟩
  · show (c.lines.filter isEntryLine).length = c.lines.countP isEntryLine
    rw [List.countP_eq_length_filter]
  · simp [Config.is_empty]
  · simp [Config.len, List.filter_append, List.filter_cons, hx]
  · rw [Config.get, Config.get, findSome?_reverse_eq_getLast?_filterMap,
      findSome?_reverse_eq_getLast?_filterMap]
    simp [List.filterMap_append, List.filterMap_cons, entryValue?_of_not_entry key hx]
  · simp [Config.keys_iter, List.filterMap_append, List.filterMap_cons,
      entryKey?_of_not_entry hx]
  · simp [Config.keys_values_iter, List.filterMap_append, List.filterMap_cons,
      entryKeyValue?_of_not_entry hx]
  · simp [Config.remove, removeGo_spec, List.countP_append, List.countP_cons,
      entryKeyMatches_of_not_entry key hx]
  · exact fun value => keys_values_of_set_insert key value l1 l2 x hx

/-- C8 witness: the bundled statement at a concrete document and insertion. -/
theorem len_and_invisibility_witness :
    (Config.mk [Line.Comment (("x").data)]).len
        = (Config.mk [Line.Comment (("x").data)]).lines.countP isEntryLine ∧
    ((Config.mk [Line.Comment (("x").data)]).is_empty = true
        ↔ (Config.mk [Line.Comment (("x").data)]).len = 0) ∧
    (Config.mk ([] ++ Line.Blank :: [Line.Entry ⟨("A").data, ("B").data⟩])).len
        = (Config.mk ([] ++ [Line.Entry ⟨("A").data, ("B").data⟩])).len ∧
    (Config.mk ([] ++ Line.Blank :: [Line.Entry ⟨("A").data, ("B").data⟩])).get (("A").data)
        = (Config.mk ([] ++ [Line.Entry ⟨("A").data, ("B").data⟩])).get (("A").data) ∧
    (Config.mk ([] ++ Line.Blank :: [Line.Entry ⟨("A").data, ("B").data⟩])).keys_iter
        = (Config.mk ([] ++ [Line.Entry ⟨("A").data, ("B").data⟩])).keys_iter ∧
    (Config.mk ([] ++ Line.Blank :: [Line.Entry ⟨("A").data, ("B").data⟩])).keys_values_iter
        = (Config.mk ([] ++ [Line.Entry ⟨("A").data, ("B").data⟩])).keys_values_iter ∧
    ((Config.mk ([] ++ Line.Blank :: [Line.Entry ⟨("A").data, ("B").data⟩])).remove
        (("A").data)).2
      = ((Config.mk ([] ++ [Line.Entry ⟨("A").data, ("B").data⟩])).remove (("A").data)).2 ∧
    (∀ value, setOutcomeEntries
        ((Config.mk ([] ++ Line.Blank :: [Line.Entry ⟨("A").data, ("B").data⟩])).set
          (("A").data) value)
      = setOutcomeEntries
        ((Config.mk ([] ++ [Line.Entry ⟨("A").data, ("B").data⟩])).set (("A").data) value)) :=
  len_and_invisibility (Config.mk [Line.Comment (("x").data)]) (("A").data)
    [] [Line.Entry ⟨("A").data, ("B").data⟩] Line.Blank rfl

/-! The hash-map conversion: lookup agrees with `get`, size counts distinct
keys. -/

theorem hmGet_hmInsert (m : List (Str × Str)) (k v key : Str) :
    hmGet (hmInsert m k v) key = if k = key then some v else hmGet m key := by
  unfold hmInsert hmGet
  by_cases hmem : m.any (fun p => decide (p.1 = k)) = true
  · rw [if_pos hmem, List.find?_map]
    by_cases hk : k = key
    · subst hk
      have hpred : ((fun p : Str × Str => decide (p.1 = k))
            ∘ (fun p : Str × Str => if p.1 = k then (k, v) else p))
          = fun p : Str × Str => decide (p.1 = k) := by
        funext p
        by_cases hp : p.1 = k <;> simp [Function.comp, hp]
      rw [hpred]
      obtain ⟨p0, hp0mem, hp0⟩ := List.any_eq_true.mp hmem
      cases hfind : m.find? (fun p => decide (p.1 = k)) with
      | none => exact absurd (List.find?_eq_none.mp hfind p0 hp0mem) (by simp_all)
      | some q =>
        have hq : q.1 = k := by simpa using List.find?_some hfind
        simp [hq]
    · have hpred : ((fun p : Str × Str => decide (p.1 = key))
            ∘ (fun p : Str × Str => if p.1 = k then (k, v) else p))
          = fun p : Str × Str => decide (p.1 = key) := by
        funext p
        by_cases hp : p.1 = k
        · simp [Function.comp, hp, hk, fun h => hk ((hp.symm.trans h))]
        · simp [Function.comp, hp]
      rw [hpred, if_neg hk]
      cases hfind : m.find? (fun p => decide (p.1 = key)) with
      | none => simp
      | some q =>
        have hq : q.1 ≠ k := by
          have := List.find?_some hfind
          simp only [decide_eq_true_eq] at this
          rw [this]
          exact fun h => hk h.symm
        simp [hq]
  · rw [if_neg hmem, List.find?_append]
    by_cases hk : k = key
    · subst hk
      have hnone : m.find? (fun p => decide (p.1 = k)) = none := by
        rw [List.find?_eq_none]
        intro p hp hpk
        exact hmem (List.any_eq_true.mpr ⟨p, hp, by simpa using hpk⟩)
      simp [hnone, List.find?]
    · have hnone2 : [(k, v)].find? (fun p => decide (p.1 = key)) = none := by
        simp [List.find?, hk]
      simp [hnone2, hk]

theorem hmGet_fold (key : Str) : ∀ (es m : List (Str × Str)),
    hmGet (es.foldl (fun m kv => hmInsert m kv.1 kv.2) m) key
      = ((es.filter (fun p => decide (p.1 = key))).getLast?).elim
          (hmGet m key) (fun p => some p.2) := by
  intro es
  induction es with
  | nil => intro m; simp
  | cons e es ih =>
    intro m
    rw [List.foldl_cons, ih]
    by_cases he : e.1 = key
    · rw [List.filter_cons_of_pos (by simpa using he)]
      cases hlast : (es.filter (fun p => decide (p.1 = key))).getLast? with
      | some p => simp [List.getLast?_cons, hlast]
      | none => simp [List.getLast?_cons, hlast, hmGet_hmInsert, he]
    · rw [List.filter_cons_of_neg (by simpa using he)]
      cases hlast : (es.filter (fun p => decide (p.1 = key))).getLast? with
      | some p => simp [hlast]
      | none => simp [hlast, hmGet_hmInsert, he]

theorem hmKeys_hmInsert (m : List (Str × Str)) (k v : Str) :
    (hmInsert m k v).map Prod.fst
      = if k ∈ m.map Prod.fst then m.map Prod.fst else m.map Prod.fst ++ [k] := by
  unfold hmInsert
  by_cases hmem : m.any (fun p => decide (p.1 = k)) = true
  · have hmk : k ∈ m.map Prod.fst := by
      obtain ⟨p, hp, hpk⟩ := List.any_eq_true.mp hmem
      exact List.mem_map.mpr ⟨p, hp, by simpa using hpk⟩
    rw [if_pos hmem, if_pos hmk, List.map_map]
    apply List.map_congr_left
    intro p hp
    by_cases hpk : p.1 = k <;> simp [Function.comp, hpk]
  · have hmk : k ∉ m.map Prod.fst := by
      intro hmemk
      obtain ⟨p, hp, hpk⟩ := List.mem_map.mp hmemk
      exact hmem (List.any_eq_true.mpr ⟨p, hp, by simp [hpk]⟩)
    rw [if_neg hmem, if_neg hmk, List.map_append]
    rfl

theorem fold_keys_nodup : ∀ (es m : List (Str × Str)), (m.map Prod.fst).Nodup →
    ((es.foldl (fun m kv => hmInsert m kv.1 kv.2) m).map Prod.fst).Nodup := by
  intro es
  induction es with
  | nil => intro m h; simpa using h
  | cons e es ih =>
    intro m h
    rw [List.foldl_cons]
    apply ih
    rw [hmKeys_hmInsert]
    by_cases hm : e.1 ∈ m.map Prod.fst
    · simpa [hm] using h
    · rw [if_neg hm, ← List.concat_eq_append]
      exact List.Nodup.concat hm h

theorem fold_keys_toFinset : ∀ (es m : List (Str × Str)),
    ((es.foldl (fun m kv => hmInsert m kv.1 kv.2) m).map Prod.fst).toFinset
      = (m.map Prod.fst).toFinset ∪ (es.map Prod.fst).toFinset := by
  intro es
  induction es with
  | nil => intro m; simp
  | cons e es ih =>
    intro m
    rw [List.foldl_cons, ih, hmKeys_hmInsert, List.map_cons, List.toFinset_cons,
      Finset.union_insert]
    by_cases hm : e.1 ∈ m.map Prod.fst
    · rw [if_pos hm]
      rw [Finset.insert_eq_self.mpr
        (Finset.mem_union_left _ (List.mem_toFinset.mpr hm))]
    · rw [if_neg hm, List.toFinset_append]
      ext a
      simp
      tauto

theorem map_fst_keys_values (c : Config) :
    c.keys_values_iter.map Prod.fst = c.keys_iter := by
  unfold Config.keys_values_iter Config.keys_iter
  rw [List.map_filterMap]
  apply List.filterMap_congr
  intro x _
  cases x <;> rfl

theorem filterMap_entryValue_eq (key : Str) (ls : List Line) :
    ls.filterMap (entryValue? key)
      = ((ls.filterMap entryKeyValue?).filter (fun p => decide (p.1 = key))).map
          Prod.snd := by
  induction ls with
  | nil => rfl
  | cons a t ih =>
    cases a with
    | Blank => simpa [entryValue?, entryKeyValue?] using ih
    | Comment s => simpa [entryValue?, entryKeyValue?] using ih
    | Entry e =>
      by_cases he : e.key = key
      · simp [entryValue?, entryKeyValue?, he, List.filter_cons, ih]
      · simp [entryValue?, entryKeyValue?, he, List.filter_cons, ih]

/-- C9: the `HashMap` conversion inserts the entry pairs in sequence order,
so its lookup agrees with `get` on every key — for duplicate keys the value
of the last Entry occurrence in sequence order is retained — and its size is
the number of distinct keys among the Entry lines. -/
theorem hashmap_last_wins (c : Config) (key : Str) :
    hmGet (configToHashMap c) key = c.get key ∧
    (configToHashMap c).length = c.keys_iter.dedup.length := by
  constructor
  · unfold configToHashMap
    rw [hmGet_fold, get_eq_getLast_filterMap, filterMap_entryValue_eq key c.lines]
    rw [List.getLast?_map]
    have hkv : c.lines.filterMap entryKeyValue? = Config.keys_values_iter c := rfl
    rw [hkv]
    cases ((Config.keys_values_iter c).filter
        (fun p => decide (p.1 = key))).getLast? with
    | none => simp [hmGet]
    | some p => simp

  · have hnd := fold_keys_nodup c.keys_values_iter [] (by simp)
    have hfin := fold_keys_toFinset c.keys_values_iter []
    show (c.keys_values_iter.foldl (fun m kv => hmInsert m kv.1 kv.2) []).length = _
    rw [← List.length_map (c.keys_values_iter.foldl (fun m kv => hmInsert m kv.1 kv.2) [])
      Prod.fst]
    rw [← List.toFinset_card_of_nodup hnd, hfin]
    simp only [List.map_nil, List.toFinset_nil, Finset.empty_union]
    rw [map_fst_keys_values, List.card_toFinset]

/-! Round-trip: splitting is a left inverse of joining, and classification a
left inverse of rendering, on well-formed material. -/

theorem splitInclusiveNl_cons (c : Char) (s : Str) :
    splitInclusiveNl (c :: s) =
      if c = '\n' then [c] :: splitInclusiveNl s
      else
        match splitInclusiveNl s with
        | [] => [[c]]
        | p :: ps => (c :: p) :: ps := rfl

theorem splitInclusiveNl_append_nl (s : Str) (hs : '\n' ∉ s) :
    ∀ t : Str, splitInclusiveNl (s ++ '\n' :: t) = (s ++ ['\n']) :: splitInclusiveNl t := by
  induction s with
  | nil => intro t; simp [splitInclusiveNl_cons]
  | cons c s ih =>
    intro t
    have hc : c ≠ '\n' := fun h => hs (by simp [h])
    have hs2 : '\n' ∉ s := fun h => hs (by simp [h])
    rw [List.cons_append, splitInclusiveNl_cons, if_neg hc, ih hs2 t]
    rfl

theorem splitInclusiveNl_no_nl (s : Str) (hs : '\n' ∉ s) (hne : s ≠ []) :
    splitInclusiveNl s = [s] := by
  induction s with
  | nil => exact absurd rfl hne
  | cons c s ih =>
    have hc : c ≠ '\n' := fun h => hs (by simp [h])
    have hs2 : '\n' ∉ s := fun h => hs (by simp [h])
    cases hsn : s with
    | nil => simp [splitInclusiveNl_cons, if_neg hc, hsn, splitInclusiveNl]
    | cons d s2 =>
      rw [← hsn]
      rw [splitInclusiveNl_cons, if_neg hc, ih hs2 (by simp [hsn])]

theorem linesMap_append_crlf (l : Str) : linesMap (l ++ ['\r', '\n']) = l := by
  have h1 : l ++ ['\r', '\n'] = (l ++ ['\r']) ++ ['\n'] := by simp
  rw [h1]
  unfold linesMap
  rw [if_pos (by rw [List.getLast?_concat]), List.dropLast_concat,
    if_pos (by rw [List.getLast?_concat]), List.dropLast_concat]

theorem linesMap_no_nl (l : Str) (h : '\n' ∉ l) : linesMap l = l := by
  unfold linesMap
  rw [if_neg (fun hh => h (List.mem_of_getLast?_eq_some hh))]

theorem joinCRLF_ne_nil (ls : List Str) (hne : ls ≠ []) (h2 : ls.getLast? ≠ some []) :
    joinCRLF ls ≠ [] := by
  cases ls with
  | nil => exact absurd rfl hne
  | cons l rest =>
    cases rest with
    | nil =>
      simp only [joinCRLF]
      intro hl
      exact h2 (by simp [hl])
    | cons l2 rest2 =>
      simp only [joinCRLF]
      intro hl
      exact absurd (congrArg List.length hl) (by simp)

theorem rustLines_joinCRLF : ∀ ls : List Str, (∀ l ∈ ls, '\n' ∉ l) →
    ls.getLast? ≠ some [] → rustLines (joinCRLF ls) = ls := by
  intro ls
  induction ls with
  | nil => intro _ _; rfl
  | cons l rest ih =>
    intro h1 h2
    cases rest with
    | nil =>
      have hlne : l ≠ [] := by
        intro hl
        exact h2 (by simp [hl])
      show rustLines (joinCRLF [l]) = [l]
      unfold joinCRLF rustLines
      rw [splitInclusiveNl_no_nl l (h1 l (by simp)) hlne]
      simp [linesMap_no_nl l (h1 l (by simp))]
    | cons l2 rest2 =>
      show rustLines (l ++ '\r' :: '\n' :: joinCRLF (l2 :: rest2)) = l :: l2 :: rest2
      have hsplit : l ++ '\r' :: '\n' :: joinCRLF (l2 :: rest2)
          = (l ++ ['\r']) ++ '\n' :: joinCRLF (l2 :: rest2) := by simp
      have hnr : '\n' ∉ l ++ ['\r'] := by
        intro hm
        rcases List.mem_append.mp hm with hm | hm
        · exact h1 l (by simp) hm
        · simp at hm
      unfold rustLines
      rw [hsplit, splitInclusiveNl_append_nl (l ++ ['\r']) hnr, List.map_cons]
      have hhead : linesMap ((l ++ ['\r']) ++ ['\n']) = l := by
        have : (l ++ ['\r']) ++ ['\n'] = l ++ ['\r', '\n'] := by simp
        rw [this, linesMap_append_crlf]
      rw [hhead]
      have htail := ih (fun x hx => h1 x (by simp [hx])) (by
        intro hl
        exact h2 (by simpa using hl))
      unfold rustLines at htail
      rw [htail]

theorem validLineB_no_nl {l : Str} (h : validLineB l = true) : '\n' ∉ l := by
  unfold validLineB at h
  rw [Bool.and_eq_true] at h
  intro hmem
  have h1 := h.1
  rw [Bool.not_eq_true'] at h1
  simp [List.contains, List.elem_eq_mem, hmem] at h1

theorem validLineB_cases {l : Str} (h : validLineB l = true) :
    l = [] ∨ (∃ e, parseEntry l = some e) ∨
      (trimEnd l ≠ [] ∧ parseEntry (trimEnd l) = none) := by
  unfold validLineB at h
  rw [Bool.and_eq_true] at h
  have h2 := h.2
  simp only [Bool.or_eq_true] at h2
  rcases h2 with (h2 | h2) | h2
  · exact Or.inl (by simpa [List.isEmpty_iff] using h2)
  · exact Or.inr (Or.inl (Option.isSome_iff_exists.mp h2))
  · rw [Bool.and_eq_true] at h2
    refine Or.inr (Or.inr ⟨?_, ?_⟩)
    · have := h2.1
      rw [Bool.not_eq_true'] at this
      simpa [List.isEmpty_iff] using this
    · simpa [Option.isNone_iff_eq_none] using h2.2

theorem printLine_classifyLine {l : Str} (h : validLineB l = true) :
    printLine (classifyLine l) = l := by
  rcases validLineB_cases h with rfl | ⟨e, he⟩ | ⟨h1, h2⟩
  · rfl
  · have ht : trimEnd l = l := trimEnd_parseEntry he
    obtain ⟨hsh, -⟩ := parseEntry_shape l e he
    have hne : l ≠ [] := by simp [hsh]
    unfold classifyLine
    rw [ht, if_neg (by simpa [List.isEmpty_iff] using hne), he]
    simpa [printLine] using hsh.symm
  · unfold classifyLine
    rw [if_neg (by simpa [List.isEmpty_iff] using h1), h2]
    rfl

theorem classifyLine_printLine {x : Line} (h : wfLineB x = true) :
    classifyLine (printLine x) = x := by
  cases x with
  | Blank => rfl
  | Comment s =>
    unfold wfLineB at h
    simp only [Bool.and_eq_true] at h
    obtain ⟨⟨-, h2⟩, h3⟩ := h
    rw [Bool.not_eq_true'] at h2
    show classifyLine s = Line.Comment s
    unfold classifyLine
    rw [if_neg (by simp [h2]), Option.isNone_iff_eq_none.mp h3]
  | Entry e =>
    unfold wfLineB at h
    simp only [Bool.and_eq_true] at h
    obtain ⟨⟨⟨hk0, hk1⟩, hv0⟩, hv1⟩ := h
    rw [Bool.not_eq_true'] at hk0 hv0
    have hp : parseEntry ('[' :: (e.key ++ ':' :: (e.value ++ [']'])))
        = some ⟨e.key, e.value⟩ :=
      parseEntry_build _ _ (by simpa [List.isEmpty_iff] using hk0) hk1
        (by simpa [List.isEmpty_iff] using hv0) hv1
    show classifyLine ('[' :: (e.key ++ ':' :: (e.value ++ [']']))) = Line.Entry e
    have ht := trimEnd_parseEntry hp
    unfold classifyLine
    rw [ht, if_neg (by simp), hp]

theorem printLine_no_nl {x : Line} (h : wfLineB x = true) : '\n' ∉ printLine x := by
  cases x with
  | Blank => simp [printLine]
  | Comment s =>
    unfold wfLineB at h
    simp only [Bool.and_eq_true] at h
    have h1 := h.1.1
    rw [Bool.not_eq_true'] at h1
    intro hmem
    simp only [printLine] at hmem
    simp [List.contains, List.elem_eq_mem, hmem] at h1
  | Entry e =>
    unfold wfLineB at h
    simp only [Bool.and_eq_true] at h
    obtain ⟨⟨⟨-, hk1⟩, -⟩, hv1⟩ := h
    intro hmem
    simp only [printLine, List.mem_cons, List.mem_append, List.mem_singleton] at hmem
    rcases hmem with h1 | hk | h1 | hv | h1
    · exact absurd h1 (by decide)
    · exact absurd (List.all_eq_true.mp hk1 _ hk) (by decide)
    · exact absurd h1 (by decide)
    · exact absurd (List.all_eq_true.mp hv1 _ hv) (by decide)
    · exact absurd h1 (by decide)

theorem printLine_ne_nil {x : Line} (h : wfLineB x = true) (hb : x ≠ Line.Blank) :
    printLine x ≠ [] := by
  cases x with
  | Blank => exact absurd rfl hb
  | Comment s =>
    unfold wfLineB at h
    simp only [Bool.and_eq_true] at h
    have h2 := h.1.2
    rw [Bool.not_eq_true'] at h2
    intro hnil
    rw [show printLine (Line.Comment s) = s from rfl] at hnil
    subst hnil
    simp [trimEnd] at h2
  | Entry e => simp [printLine]

/-- C1 counterexample: the claim fails on a text that ends with the canonical
separator. The text `"[A:B]\r\n"` is the valid Entry line `"[A:B]"` and the
valid Blank line `""` joined with the canonical CRLF separator, yet
serializing its parse yields `"[A:B]"`, not the text back; likewise the
document `[Comment "x", Blank]` — reachable as the parse of
`"x\r\n\r\n"` — reparses from its own serialization without the final Blank
line, so it is not reproduced equivalently. -/
theorem roundtrip_counterexample :
    (validLineB (("[A:B]").data) = true ∧ validLineB [] = true ∧
      joinCRLF [("[A:B]").data, []] = ("[A:B]\r\n").data) ∧
    Config.print (Config.read_str (("[A:B]\r\n").data)) ≠ ("[A:B]\r\n").data ∧
    Config.read_str (("x\r\n\r\n").data)
        = Config.mk [Line.Comment (("x").data), Line.Blank] ∧
    Config.read_str (Config.print (Config.mk [Line.Comment (("x").data), Line.Blank]))
        ≠ Config.mk [Line.Comment (("x").data), Line.Blank] := by
  refine ⟨⟨by decide, by decide, by decide⟩, by decide, by decide, by decide⟩

/-- C1 (amended): the round-trip holds away from a trailing blank line. For
any sequence of valid Entry, Blank, or Comment line strings whose final line
is not the empty (Blank) line, serializing the parse of their CRLF join
yields the join back unchanged; and for every document made of well-formed
classified lines whose last line is not Blank, parsing the serializer's
output reproduces the document exactly. (With a trailing blank, the line
splitter drops the final empty segment — the counterexample — and the claim
fails; the hypotheses here exclude exactly that.) -/
theorem roundtrip_amended :
    (∀ ls : List Str, (∀ l ∈ ls, validLineB l = true) → ls.getLast? ≠ some [] →
        Config.print (Config.read_str (joinCRLF ls)) = joinCRLF ls) ∧
    (∀ c : Config, (∀ x ∈ c.lines, wfLineB x = true) →
        c.lines.getLast? ≠ some Line.Blank →
        Config.read_str (Config.print c) = c) := by
  constructor
  · intro ls h1 h2
    have hnl : ∀ l ∈ ls, '\n' ∉ l := fun l hl => validLineB_no_nl (h1 l hl)
    show joinCRLF (((rustLines (joinCRLF ls)).map classifyLine).map printLine)
        = joinCRLF ls
    rw [rustLines_joinCRLF ls hnl h2, List.map_map]
    congr 1
    have : ls.map (printLine ∘ classifyLine) = ls.map id :=
      List.map_congr_left (fun l hl => printLine_classifyLine (h1 l hl))
    rw [this, List.map_id]
  · intro c hwf hlast
    obtain ⟨ls⟩ := c
    simp only at hwf hlast
    show Config.mk ((rustLines (joinCRLF (ls.map printLine))).map classifyLine)
        = Config.mk ls
    have hnl : ∀ p ∈ ls.map printLine, '\n' ∉ p := by
      intro p hp
      obtain ⟨x, hx, rfl⟩ := List.mem_map.mp hp
      exact printLine_no_nl (hwf x hx)
    have hlast2 : (ls.map printLine).getLast? ≠ some [] := by
      rw [List.getLast?_map]
      intro hl
      cases hgl : ls.getLast? with
      | none => rw [hgl] at hl; simp at hl
      | some x =>
        rw [hgl] at hl
        simp only [Option.map_some'] at hl
        have hxmem : x ∈ ls := List.mem_of_getLast?_eq_some hgl
        have hxb : x ≠ Line.Blank := fun hh => hlast (hh ▸ hgl)
        exact printLine_ne_nil (hwf x hxmem) hxb (by simpa using hl)
    rw [rustLines_joinCRLF (ls.map printLine) hnl hlast2, List.map_map]
    have : ls.map (classifyLine ∘ printLine) = ls.map id :=
      List.map_congr_left (fun x hx => classifyLine_printLine (hwf x hx))
    rw [this, List.map_id]

/-- C1 witness: the amended round-trip at a concrete two-line text (an Entry
line and a Comment line) and at the corresponding concrete document. -/
theorem roundtrip_amended_witness :
    Config.print (Config.read_str (joinCRLF [("[A:B]").data, ("foo").data]))
        = joinCRLF [("[A:B]").data, ("foo").data] ∧
    Config.read_str (Config.print (Config.mk
        [Line.Entry ⟨("A").data, ("B").data⟩, Line.Comment (("foo").data)]))
      = Config.mk [Line.Entry ⟨("A").data, ("B").data⟩, Line.Comment (("foo").data)] :=
  ⟨roundtrip_amended.1 [("[A:B]").data, ("foo").data] (by decide) (by decide),
    roundtrip_amended.2 (Config.mk [Line.Entry ⟨("A").data, ("B").data⟩,
      Line.Comment (("foo").data)]) (by decide) (by decide)⟩

end Dfconfig
